import Mathlib

/-!
# Verification of the Amoeba bottom-up Datalog evaluator

This file is a shallow embedding, in Lean 4, of the core of the
`amoeba` Datalog evaluator (Rust sources under `src/amoeba/src`), together
with theorems settling a list of claims about its behaviour.

Conventions of the embedding:
* Rust enums/structs become Lean inductives/structures with the source's
  field and variant names (adjusted to Lean casing where required).
* `HashMap<String, V>` values are modelled as association lists
  `List (String × V)` with Rust's `insert` (replace-or-append) and
  `entry().or_insert()` (push-to-entry) semantics.  Where the source
  iterates a `HashMap`/`HashSet` (whose order Rust does not fix), either
  the order is irrelevant to the claim at hand, or the iteration order is
  an explicit parameter of the definition.
* Panics and fatal errors are modelled with `Option`/`Except`.
* The SQLite backend is external to the repository; the effect of the
  generated SQL on the working store is modelled at the tuple level
  (relations are lists of tuples, `INSERT OR IGNORE` into a table with a
  UNIQUE constraint over all columns is duplicate-discarding insertion).
-/

namespace Amoeba

/-! ## AST (`src/amoeba/src/syntax/ast.rs`) -/

/-- Model of `Constant` from `ast.rs`: integer, float, symbol or boolean constant.
The Rust `NotNan<f64>` payload is modelled as `ℚ`; no claim involves
floating-point arithmetic. -/
inductive Constant where
  | integer : Int → Constant
  | float : ℚ → Constant
  | symbol : String → Constant
  | boolean : Bool → Constant
deriving DecidableEq, Repr

/-- Model of `Variable` from `ast.rs`: distinguished (appears in the head),
undistinguished (body-only), or the free placeholder `_`. -/
inductive Variable where
  | distinguished : String → Variable
  | undistinguished : String → Variable
  | free : Variable
deriving DecidableEq, Repr

/-- Model of `Term` from `ast.rs`. -/
inductive Term where
  | variable : Variable → Term
  | constant : Constant → Term
deriving DecidableEq, Repr

/-- Model of `Term::is_nontrivial_variable`: the name of a distinguished or
undistinguished variable, `none` for free variables and constants. -/
def Term.is_nontrivial_variable : Term → Option String
  | .variable (.distinguished v) => some v
  | .variable (.undistinguished v) => some v
  | _ => none

/-- Model of `Atom` from `ast.rs`. -/
structure Atom where
  negation : Bool
  predicate : String
  terms : List Term
deriving DecidableEq, Repr

/-- Model of `Operator` from `ast.rs` (arithmetic-expression node labels; a leaf
carries a term). -/
inductive Operator where
  | unifier | disunifier | less | lessEqual | greater | greaterEqual
  | and | or | neg | add | sub | mul | div
  | leaf : Term → Operator
deriving DecidableEq, Repr

/-- Model of `Arith` from `ast.rs`: a binary tree of operators; children are
optional boxed subtrees. -/
inductive Arith where
  | mk : Operator → Option Arith → Option Arith → Arith

/-- The operator of an arithmetic node. -/
def Arith.operator : Arith → Operator
  | .mk op _ _ => op

/-- Model of `Arith::get_leaves`: collect the terms at `Operator::Leaf` nodes.  A
leaf node's children (if any) are not visited, exactly as in the source. -/
def Arith.get_leaves : Arith → List Term
  | .mk (.leaf t) _ _ => [t]
  | .mk _ lhs rhs =>
      (match lhs with
       | some l => l.get_leaves
       | none => []) ++
      (match rhs with
       | some r => r.get_leaves
       | none => [])

/-- Model of `Clause` from `ast.rs`: an atom or an arithmetic expression. -/
inductive Clause where
  | atom : Atom → Clause
  | arithmetic : Arith → Clause

/-- Model of `Clause::to_string`: the predicate name for atoms, `"arith"` for
arithmetic clauses (used as the relation name in generated SQL). -/
def Clause.toName : Clause → String
  | .atom a => a.predicate
  | .arithmetic _ => "arith"

/-- Model of `IO` annotation from `ast.rs` (`@input` / `@output` / none). -/
inductive IOAnn where
  | read : Option String → IOAnn
  | write : Option String → IOAnn
  | silent : IOAnn
deriving DecidableEq, Repr

/-- Model of `Rule` from `ast.rs`. -/
structure Rule where
  io : IOAnn
  head : Atom
  body : List Clause

/-- Promotion of a head term in `Rule::annotate_variable`: an
undistinguished variable becomes distinguished, everything else is left
alone. -/
def promoteHeadTerm : Term → Term
  | .variable (.undistinguished name) => .variable (.distinguished name)
  | t => t

/-- The set of distinguished-variable names collected from the head in
`Rule::annotate_variable` (after the promotion pass over the head). -/
def headDistinguished (head : Atom) : List String :=
  head.terms.foldl
    (fun acc t =>
      match promoteHeadTerm t with
      | .variable (.distinguished name) => acc ++ [name]
      | _ => acc)
    []

/-- Promotion of one body term in `Rule::annotate_variable`: an
undistinguished variable whose name is in the distinguished set becomes
distinguished. -/
def promoteBodyTerm (distinguished : List String) : Term → Term
  | .variable (.undistinguished name) =>
      if name ∈ distinguished then .variable (.distinguished name)
      else .variable (.undistinguished name)
  | t => t

/-- Model of `Rule::annotate_variable` from `ast.rs`.  The head pass rewrites every
undistinguished head variable to distinguished and records the names.  The
body pass rewrites atom clauses term by term.  For an arithmetic clause the
source iterates `arith.get_leaves().iter_mut()` — a mutable iterator over
the *temporary vector of clones* returned by `get_leaves` — so the clause
stored in the rule is left unchanged; the embedding reflects that. -/
def Rule.annotate_variable (rule : Rule) : Rule :=
  let head' : Atom :=
    { rule.head with terms := rule.head.terms.map promoteHeadTerm }
  let distinguished := headDistinguished rule.head
  let body' : List Clause :=
    rule.body.map fun clause =>
      match clause with
      | .atom a => .atom { a with terms := a.terms.map (promoteBodyTerm distinguished) }
      | .arithmetic arith => .arithmetic arith
  { rule with head := head', body := body' }

/-- Model of `Rule::is_base_case`: every body clause is an atom over an
already-evaluated predicate; any arithmetic clause makes the rule
non-base-case. -/
def Rule.is_base_case (rule : Rule) (predicates : List String) : Bool :=
  rule.body.all fun clause =>
    match clause with
    | .atom a => predicates.contains a.predicate
    | .arithmetic _ => false

/-! ## Variable analyzer (`src/amoeba/src/engine/analysis.rs`) -/

/-- Model of `VarGroup` from `analysis.rs`: the positions of one variable within
one body clause. -/
structure VarGroup where
  is_arith : Bool
  clause_index : Nat
  term_indexes : List Nat
deriving DecidableEq, Repr

/-- Model of `VarGroup::contain_duplicate`. -/
def VarGroup.contain_duplicate (g : VarGroup) : Bool :=
  g.term_indexes.length > 1

/-- Push a value onto a map entry, creating the entry if absent —
Rust's `map.entry(k).or_insert(Vec::new()).push(v)` on an association
list. -/
def alistPush {α : Type} (m : List (String × List α)) (k : String) (v : α) :
    List (String × List α) :=
  match m with
  | [] => [(k, [v])]
  | (k', vs) :: rest =>
      if k' = k then (k', vs ++ [v]) :: rest
      else (k', vs) :: alistPush rest k v

/-- Look up a key in an association list. -/
def alistGet {α : Type} (m : List (String × α)) (k : String) : Option α :=
  match m with
  | [] => none
  | (k', v) :: rest => if k' = k then some v else alistGet rest k

/-- The `head_dict` of `VarDict::new`: for each nontrivial head variable,
the list of head positions where it occurs, in ascending order (the source
pushes positions while enumerating the head). -/
def headDict (rule : Rule) : List (String × List Nat) :=
  (rule.head.terms.enum).foldl
    (fun m p =>
      match p.2.is_nontrivial_variable with
      | some v => alistPush m v p.1
      | none => m)
    []

/-- One step of building `clause_dict` for an occurrence of variable `v`
at `(clause_index, term_index)` inside an *atom* clause: if a group for
this clause already exists the index is appended to it, otherwise a fresh
group is pushed. -/
def clauseDictAddAtomOcc (m : List (String × List VarGroup)) (v : String)
    (clause_index term_index : Nat) : List (String × List VarGroup) :=
  match m with
  | [] => [(v, [⟨false, clause_index, [term_index]⟩])]
  | (k, groups) :: rest =>
      if k = v then
        if groups.isEmpty then
          (k, [(⟨false, clause_index, [term_index]⟩ : VarGroup)]) :: rest
        else if groups.any (fun g => g.clause_index = clause_index) then
          (k, groups.map fun g =>
                if g.clause_index = clause_index then
                  { g with term_indexes := g.term_indexes ++ [term_index] }
                else g) :: rest
        else
          (k, groups ++ [⟨false, clause_index, [term_index]⟩]) :: rest
      else (k, groups) :: clauseDictAddAtomOcc rest v clause_index term_index

/-- One step of building `clause_dict` for an occurrence inside an
*arithmetic* clause.  Note the source's arithmetic branch differs from the
atom branch: when the entry is nonempty it only appends to groups of the
same clause and never pushes a new group. -/
def clauseDictAddArithOcc (m : List (String × List VarGroup)) (v : String)
    (clause_index term_index : Nat) : List (String × List VarGroup) :=
  match m with
  | [] => [(v, [⟨true, clause_index, [term_index]⟩])]
  | (k, groups) :: rest =>
      if k = v then
        if groups.isEmpty then
          (k, [(⟨true, clause_index, [term_index]⟩ : VarGroup)]) :: rest
        else
          (k, groups.map fun g =>
                if g.clause_index = clause_index then
                  { g with term_indexes := g.term_indexes ++ [term_index] }
                else g) :: rest
      else (k, groups) :: clauseDictAddArithOcc rest v clause_index term_index

/-- The `clause_dict` of `VarDict::new`: fold over the body clauses, and
within an atom over its terms (within an arithmetic clause over its leaves,
left to right), recording each nontrivial-variable occurrence. -/
def clauseDict (rule : Rule) : List (String × List VarGroup) :=
  (rule.body.enum).foldl
    (fun m p =>
      match p.2 with
      | .atom a =>
          (a.terms.enum).foldl
            (fun m q =>
              match q.2.is_nontrivial_variable with
              | some v => clauseDictAddAtomOcc m v p.1 q.1
              | none => m)
            m
      | .arithmetic arith =>
          (arith.get_leaves.enum).foldl
            (fun m q =>
              match q.2.is_nontrivial_variable with
              | some v => clauseDictAddArithOcc m v p.1 q.1
              | none => m)
            m)
    []

/-- Model of `VarDict::alloc`: every body occurrence `(clause_index, term_index)`
of a variable.  The source collects them into a `HashSet`; this function
lists them in the canonical group order — functions that *iterate* the
set take the iteration order as an explicit parameter. -/
def alloc (rule : Rule) (v : String) : List (Nat × Nat) :=
  match alistGet (clauseDict rule) v with
  | none => []
  | some groups =>
      groups.flatMap fun g => g.term_indexes.map fun t => (g.clause_index, t)

/-! ## Query writer (`Runtime::write_queries`, `runtime.rs` lines 102–170)

The WHERE clause of the selection executed for a `write` rule is a
conjunction of (i) `column_i = literal` for every constant head term and
(ii) `column_0 = column_{i_k}` for the non-first occurrences `i_k` of each
repeated head variable, in that order.  Conjuncts are represented
structurally; each constructor corresponds one-to-one to a `format!`
string of the source. -/

/-- One WHERE conjunct of the query writer's selection. -/
inductive WhereConj where
  | constEq : Nat → Constant → WhereConj
  | colEq : Nat → Nat → WhereConj
deriving DecidableEq, Repr

/-- The conjuncts pushed by `write_queries` for one `write` rule:
constants first (`column_i = literal`), then for every head variable with
occurrence positions `i₀ < i₁ < …` the conjuncts
`column_0 = column_{i_k}` for `k ≥ 1` — the source hard-codes `column_0`
as the left-hand side. -/
def writeQueryWhere (rule : Rule) : List WhereConj :=
  let constants :=
    (rule.head.terms.enum).filterMap fun p =>
      match p.2 with
      | .constant c => some (.constEq p.1 c)
      | _ => none
  let varEqs :=
    (headDict rule).flatMap fun entry =>
      (entry.2.drop 1).map fun idx => WhereConj.colEq 0 idx
  constants ++ varEqs

/-- Modelled from the spec (§4.6 step 2): the same conjuncts, but with the
equality conjuncts written `column_{i₀} = column_{i_k}`, where `i₀` is the
variable's own first occurrence position in the head.  This definition
follows the spec's words and exists only to be compared with
`writeQueryWhere`, which is translated from the source. -/
def writeQueryWhereSpec (rule : Rule) : List WhereConj :=
  let constants :=
    (rule.head.terms.enum).filterMap fun p =>
      match p.2 with
      | .constant c => some (.constEq p.1 c)
      | _ => none
  let varEqs :=
    (headDict rule).flatMap fun entry =>
      (entry.2.drop 1).map fun idx => WhereConj.colEq (entry.2.headD 0) idx
  constants ++ varEqs

/-! ## Rule compiler: projection list and FROM anchor
(`Runtime::init_base`, `runtime.rs` lines 222–322, and
`Runtime::iteration`, lines 381–496)

Both functions build the projection (`select_sql`) by walking the head
positions in order; for each position they pick, from the variable's
occurrence set (`VarDict::alloc`), an occurrence minimising the term
index (`min_by_key`), and *overwrite* `first_predicate` with that
occurrence's clause name.  After the walk, `first_predicate` — whatever
its final value — becomes the FROM relation.  The occurrence set is a
`HashSet`, so the order in which `min_by_key` scans it is the set's
iteration order; it is passed here as the explicit parameter `ord`. -/

/-- Rust's `Iterator::min_by_key` on pairs keyed by the second component:
the first element of the list attaining the minimal key. -/
def minBySnd (l : List (Nat × Nat)) : Option (Nat × Nat) :=
  l.foldl
    (fun acc x =>
      match acc with
      | none => some x
      | some m => if x.2 < m.2 then some x else acc)
    none

/-- One projection entry `relation.column_{src} AS column_{dst}`. -/
structure SelectStmt where
  relation : String
  src_column : Nat
  dst_column : Nat
deriving DecidableEq, Repr

/-- The projection source of one head term: the chosen occurrence
`(clause_index, term_index)` together with the (possibly delta-renamed)
clause name.  `none` models the `panic!("Variable {} is not assigned")`
on constants/free variables and the unreachable out-of-bounds cases. -/
def termSource (rule : Rule) (rename : String → String)
    (ord : String → List (Nat × Nat)) (t : Term) : Option (String × Nat) :=
  match t.is_nontrivial_variable with
  | none => none
  | some v =>
      match minBySnd (ord v) with
      | none => none
      | some cj =>
          match rule.body.get? cj.1 with
          | none => none
          | some clause => some (rename clause.toName, cj.2)

/-- The walk over the head terms (with their position index) that
accumulates the projection list and overwrites `first_predicate` at
every position. -/
def selectFromAux (rule : Rule) (rename : String → String)
    (ord : String → List (Nat × Nat)) :
    Nat → List Term → List SelectStmt × String →
    Option (List SelectStmt × String)
  | _, [], acc => some acc
  | index, term :: rest, acc =>
      match termSource rule rename ord term with
      | none => none
      | some (atom_name, j) =>
          selectFromAux rule rename ord (index + 1) rest
            (acc.1 ++ [⟨atom_name, j, index⟩], atom_name)

/-- The projection list and FROM anchor built by `Runtime::init_base`
(no renaming of body clauses). -/
def initBaseSelectFrom (rule : Rule) (ord : String → List (Nat × Nat)) :
    Option (List SelectStmt × String) :=
  selectFromAux rule id ord 0 rule.head.terms ([], "")

/-- The delta rewrite of `Runtime::iteration`: a body clause whose name
equals the head predicate is referred to as `delta_<head>`. -/
def deltaRename (headPredicate : String) (s : String) : String :=
  if s = headPredicate then "delta_" ++ s else s

/-- The projection list and FROM anchor built by `Runtime::iteration`
(body clauses naming the head predicate are renamed to the delta). -/
def iterationSelectFrom (rule : Rule) (ord : String → List (Nat × Nat)) :
    Option (List SelectStmt × String) :=
  selectFromAux rule (deltaRename rule.head.predicate) ord 0
    rule.head.terms ([], "")

/-- The clause name chosen as the projection source for head position `i`. -/
def projSource (rule : Rule) (rename : String → String)
    (ord : String → List (Nat × Nat)) (i : Nat) : Option String :=
  match rule.head.terms.get? i with
  | none => none
  | some t => (termSource rule rename ord t).map (·.1)

/-- An iteration order for the occurrence `HashSet`s is valid when, for
every variable, it lists exactly the occurrences `VarDict::alloc`
collects (in some order). -/
def ValidOrd (rule : Rule) (ord : String → List (Nat × Nat)) : Prop :=
  ∀ v, List.Perm (ord v) (alloc rule v)

/-! ## Fixpoint driver (`Runtime::eval`, `apply_rules`,
`semi_naive_evaluate`, `iteration`; `runtime.rs` lines 76–100, 172–220,
324–379, 381–542)

The working store is modelled as a total map from table names to lists of
tuples.  Tables created with a UNIQUE constraint over all columns
(`CREATE TABLE <idb> …, UNIQUE(…)`) receive tuples through
`insertIgnore`, which drops duplicates; `delta_p` and `temp_p` are
created with `CREATE TABLE … AS SELECT`, which copies no constraints, so
inserts into them append unconditionally.

The effect of one compiled `INSERT OR IGNORE INTO … SELECT … FROM …
JOIN … ON … WHERE …` statement is modelled relationally by `ruleEval`:
the head instances of the rule under all assignments of the body
variables that are consistent with the stored relations.  For bodies
whose atom clauses are pairwise connected by shared variables and whose
predicates are pairwise distinct — the shape of every rule used in the
theorems below — this is exactly the join/filter/projection the
generated SQL computes. -/

/-- A stored tuple: one value per column. -/
abbrev Tup := List Constant

/-- The working store: table name → stored tuples. -/
def Db : Type := String → List Tup

/-- Update one table of the store. -/
def Db.update (db : Db) (name : String) (rel : List Tup) : Db :=
  fun n => if n = name then rel else db n

/-- Model of `INSERT OR IGNORE` into a table with a UNIQUE constraint over all
columns: append each new tuple unless already present. -/
def insertIgnore (rel : List Tup) (new : List Tup) : List Tup :=
  new.foldl (fun r t => if t ∈ r then r else r ++ [t]) rel

/-- A variable assignment accumulated while joining body atoms. -/
abbrev Assignment := List (String × Constant)

/-- Match one body term against one stored value under an assignment:
constants must be equal, free variables match anything, a named variable
must agree with its binding (or acquires one). -/
def matchTermValue (σ : Assignment) : Term → Constant → Option Assignment
  | .constant k, c => if k = c then some σ else none
  | .variable .free, _ => some σ
  | .variable (.distinguished v), c =>
      match σ.lookup v with
      | some c' => if c' = c then some σ else none
      | none => some ((v, c) :: σ)
  | .variable (.undistinguished v), c =>
      match σ.lookup v with
      | some c' => if c' = c then some σ else none
      | none => some ((v, c) :: σ)

/-- Match an atom's term list against a stored tuple (arities must
agree). -/
def matchTuple (σ : Assignment) : List Term → Tup → Option Assignment
  | [], [] => some σ
  | t :: ts, c :: cs =>
      match matchTermValue σ t c with
      | some σ' => matchTuple σ' ts cs
      | none => none
  | _, _ => none

/-- The relation a body atom reads from: `delta_<head>` when the
semi-naïve rewrite applies and the atom names the head predicate, the
atom's own table otherwise. -/
def atomRelName (headPredicate : String) (useDelta : Bool) (a : Atom) : String :=
  if useDelta && a.predicate = headPredicate then "delta_" ++ headPredicate
  else a.predicate

/-- All assignments satisfying the body clauses in order.  Arithmetic
clauses contribute no constraints: the compiler emits none for them
(design note §9 of the spec; `Clause::to_string` maps them to the
placeholder name `"arith"`). -/
def evalBody (db : Db) (headPredicate : String) (useDelta : Bool) :
    List Clause → Assignment → List Assignment
  | [], σ => [σ]
  | .atom a :: rest, σ =>
      (db (atomRelName headPredicate useDelta a)).flatMap fun tup =>
        match matchTuple σ a.terms tup with
        | some σ' => evalBody db headPredicate useDelta rest σ'
        | none => []
  | .arithmetic _ :: rest, σ => evalBody db headPredicate useDelta rest σ

/-- The head tuple produced by an assignment (`none` when a head variable
is unbound — the compiler's panic case). -/
def projectHead (σ : Assignment) : List Term → Option Tup
  | [] => some []
  | .constant c :: ts => (projectHead σ ts).map (c :: ·)
  | .variable (.distinguished v) :: ts =>
      match σ.lookup v with
      | some c => (projectHead σ ts).map (c :: ·)
      | none => none
  | .variable (.undistinguished v) :: ts =>
      match σ.lookup v with
      | some c => (projectHead σ ts).map (c :: ·)
      | none => none
  | .variable .free :: _ => none

/-- The tuples one compiled rule derives from the current store:
join the body against the stored relations (reading `delta_<head>` for
head-predicate atoms when `useDelta` is set) and project the head. -/
def ruleEval (db : Db) (rule : Rule) (useDelta : Bool) : List Tup :=
  (evalBody db rule.head.predicate useDelta rule.body []).filterMap
    fun σ => projectHead σ rule.head.terms

/-- One pass of `Runtime::iteration` on the store, for one recursive
rule with head predicate `p`:
1. the compiled semi-naïve insertion appends the join output to
   `temp_p` (created without constraints, so nothing is deduplicated);
2. `delta_p` is cleared and refilled with the rows of `temp_p` absent
   from `p` (the LEFT JOIN anti-semijoin);
3. `delta_p` is inserted into `p` with `INSERT OR IGNORE`. -/
def iterationStep (db : Db) (rule : Rule) : Db :=
  let p := rule.head.predicate
  let temp' := db ("temp_" ++ p) ++ ruleEval db rule true
  let db := db.update ("temp_" ++ p) temp'
  let delta' := temp'.filter fun t => t ∉ db p
  let db := db.update ("delta_" ++ p) delta'
  db.update p (insertIgnore (db p) delta')

/-- The fixpoint loop of `Runtime::semi_naive_evaluate`: run
`iteration`, then exit iff `SELECT COUNT(*) FROM delta_p` is zero.
`fuel` bounds the number of iterations; `none` models a run that has not
reached the fixpoint within the bound (the source loop is unbounded). -/
def semiNaiveLoop (rule : Rule) : Nat → Db → Option Db
  | 0, _ => none
  | fuel + 1, db =>
      let db' := iterationStep db rule
      if db' ("delta_" ++ rule.head.predicate) = [] then some db'
      else semiNaiveLoop rule fuel db'

/-- Model of `Runtime::semi_naive_evaluate` for one recursive rule: create
`delta_p` as a copy of `p` and `temp_p` empty, loop to the fixpoint,
then drop both working tables. -/
def semiNaiveEvaluate (fuel : Nat) (db : Db) (rule : Rule) : Option Db :=
  let p := rule.head.predicate
  let db := db.update ("delta_" ++ p) (db p)
  let db := db.update ("temp_" ++ p) []
  match semiNaiveLoop rule fuel db with
  | none => none
  | some db' => some ((db'.update ("delta_" ++ p) []).update ("temp_" ++ p) [])

/-- Model of `Runtime::apply_rules`: execute the base-case rules in source order
(each `init_base` inserts its join output into the head table), then run
`semi_naive_evaluate` — a complete, separate fixpoint loop — for each
non-base-case rule in source order. -/
def applyRules (fuel : Nat) (db : Db) (rules : List Rule)
    (previous : List String) : Option Db :=
  let baseCases := rules.filter (·.is_base_case previous)
  let db := baseCases.foldl
    (fun db rule =>
      db.update rule.head.predicate
        (insertIgnore (db rule.head.predicate) (ruleEval db rule false)))
    db
  let recursiveCases := rules.filter (fun r => !r.is_base_case previous)
  recursiveCases.foldlM (fun db rule => semiNaiveEvaluate fuel db rule) db

/-- Failure modes of the evaluation driver: the arity assertion of
`Runtime::eval` (`assert!(rules.iter().all(|rule| rule.head.terms.len()
== rules[0].head.terms.len()))`), or fuel exhaustion of the model's
bounded loop. -/
inductive EvalErr where
  | arityAssert
  | fuelExhausted
deriving DecidableEq, Repr

/-- The arity assertion of `Runtime::eval`: every rule of the predicate
has a head of the same arity as the first rule. -/
def arityAssertHolds (rules : List Rule) : Bool :=
  rules.all fun rule =>
    rule.head.terms.length = ((rules.headD rule).head.terms.length)

/-- The main loop of `Runtime::eval` over the stratification order:
`previous` starts as the edb names; for each idb in order, assert equal
head arities across its rules, run `apply_rules`, and add the predicate
to `previous`. -/
def evalGo (fuel : Nat) : Db → List String → List (String × List Rule) →
    Except EvalErr Db
  | db, _, [] => .ok db
  | db, previous, (name, rules) :: rest =>
      if arityAssertHolds rules then
        match applyRules fuel db rules previous with
        | some db' => evalGo fuel db' (previous ++ [name]) rest
        | none => .error .fuelExhausted
      else .error .arityAssert

/-! ## Entry points (`src/amoeba/src/engine/mod.rs`, `src/amoeba/src/main.rs`)

`engine::run` matches on `Runtime::new`'s `Result`: on `Ok` it calls
`runtime.eval()` and *discards* the returned `Result`
(`let _result = runtime.eval();`); on `Err` it prints one
`ERROR: <error>` line and returns.  Both arms return normally, `main`
then returns `()`, and a Rust process whose `main` returns normally
exits with status 0.  Fatal errors raised as panics (`panic!`,
`assert!`, `unwrap`) abort the process instead and are outside this
value-level model. -/

/-- The diagnostics printed and the process exit status resulting from
`main` when `Runtime::new` returns the given `Result` (the inner
`Except` is the `Result` of `runtime.eval()`, which `run` discards). -/
def mainResult (runtimeNew : Except String (Except String Unit)) :
    List String × Nat :=
  match runtimeNew with
  | .ok _evalResult => ([], 0)
  | .error e => (["ERROR: " ++ e], 0)

/-! ## Context builder (`src/amoeba/src/syntax/context.rs`,
`src/amoeba/src/syntax/stratify.rs`)

`Context::new` buckets the program's rules by IO annotation into
`edbs` / `idbs` / `queries` (`HashMap`s: modelled as association lists
with replace-on-insert for `edbs`/`queries` and push-to-entry for
`idbs`), then runs name resolution, per-idb validation, stratification
and the stratified-negation check, and finally annotates the idb rules'
variables.  Each `panic!` becomes a `CtxError`.

`Stratum::new` (via petgraph, an external library) decomposes the
dependency graph into strongly connected components, indexed in reverse
topological order.  The graph's nodes are the `relations` argument (the
edb names) plus the endpoints of every dependency edge — `add_edge`
inserts missing endpoints.  The embedding computes the node set exactly
as the source does, and assigns each node a level through its
reachability height: nodes of one SCC get equal levels, and an edge into
a different SCC strictly decreases the level, which are the ordering
properties the source relies on; the claims below depend only on the
*domain* of the level map. -/

/-- The fatal errors of `Context::new` (each a `panic!` in the source,
including the `expect("relation not found")` of `Stratum::get_level`). -/
inductive CtxError where
  | duplicatePredicate : String → CtxError
  | bothIdbAndEdb : String → CtxError
  | freeVarInHead : String → CtxError
  | undefinedPredicate : String → CtxError
  | relationNotFound : CtxError
  | cyclicDependency : CtxError
  | mutualDependency : CtxError
deriving DecidableEq, Repr

/-- Rust's `HashMap::insert` on an association list: replace the value
if the key is present, append otherwise. -/
def alistInsert {α : Type} (m : List (String × α)) (k : String) (v : α) :
    List (String × α) :=
  match m with
  | [] => [(k, v)]
  | (k', v') :: rest =>
      if k' = k then (k, v) :: rest else (k', v') :: alistInsert rest k v

/-- Insert a value into a list treated as a set (`HashSet::insert`). -/
def setInsert {α : Type} [DecidableEq α] (s : List α) (x : α) : List α :=
  if x ∈ s then s else s ++ [x]

/-- The three rule buckets of a `Context`. -/
structure Buckets where
  edbs : List (String × Rule)
  idbs : List (String × List Rule)
  queries : List (String × Rule)

/-- One step of the bucketing loop of `Context::new`: `read` rules into
`edbs` (insert, replacing any earlier rule of the same name), `write`
rules into `queries` (likewise), `silent` rules appended to their
predicate's entry in `idbs`. -/
def bucketStep (b : Buckets) (rule : Rule) : Buckets :=
  let name := rule.head.predicate
  match rule.io with
  | .read _ => { b with edbs := alistInsert b.edbs name rule }
  | .write _ => { b with queries := alistInsert b.queries name rule }
  | .silent => { b with idbs := alistPush b.idbs name rule }

/-- The bucketing loop of `Context::new`. -/
def bucket (program : List Rule) : Buckets :=
  program.foldl bucketStep ⟨[], [], []⟩

/-- The loop body of edb name resolution: walk the `edbs` map, failing
with `Duplicated predicate` if a name was already seen, and collect the
`predicates` set. -/
def edbNameResolutionGo :
    List (String × Rule) → List String → Except CtxError (List String)
  | [], predicates => .ok predicates
  | entry :: rest, predicates =>
      if entry.1 ∈ predicates then .error (.duplicatePredicate entry.1)
      else edbNameResolutionGo rest (predicates ++ [entry.1])

/-- Name resolution for edbs (`predicates` starts empty). -/
def edbNameResolution (edbs : List (String × Rule)) :
    Except CtxError (List String) :=
  edbNameResolutionGo edbs []

/-- Model of `check_head`: no free variable in the head of an idb rule. -/
def checkHead (a : Atom) : Except CtxError Unit :=
  if a.terms.any (fun t => t = .variable .free) then
    .error (.freeVarInHead a.predicate)
  else .ok ()

/-- Model of `check_atom`: every body atom names an edb or an idb. -/
def checkAtom (predicates idbKeys : List String) (a : Atom) :
    Except CtxError Unit :=
  if !predicates.contains a.predicate && !idbKeys.contains a.predicate then
    .error (.undefinedPredicate a.predicate)
  else .ok ()

/-- The body clauses of the per-idb validation loop: each atom is
checked with `check_atom` and contributes the dependency edge
`(head, body-predicate)` (a `HashSet`: set insertion); an arithmetic
clause contributes nothing. -/
def idbValidateClauses (predicates idbKeys : List String) (name : String) :
    List Clause → List (String × String) →
    Except CtxError (List (String × String))
  | [], deps => .ok deps
  | clause :: rest, deps =>
      match clause with
      | .atom a =>
          match checkAtom predicates idbKeys a with
          | .error e => .error e
          | .ok _ =>
              idbValidateClauses predicates idbKeys name rest
                (setInsert deps (name, a.predicate))
      | .arithmetic _ => idbValidateClauses predicates idbKeys name rest deps

/-- The rules of one idb entry in the validation loop: `check_head`,
then the body clauses, for each rule in turn. -/
def idbValidateRules (predicates idbKeys : List String) (name : String) :
    List Rule → List (String × String) →
    Except CtxError (List (String × String))
  | [], deps => .ok deps
  | rule :: rest, deps =>
      match checkHead rule.head with
      | .error e => .error e
      | .ok _ =>
          match idbValidateClauses predicates idbKeys name rule.body deps with
          | .error e => .error e
          | .ok deps' => idbValidateRules predicates idbKeys name rest deps'

/-- The idb entries of the validation loop: reject a predicate declared
as both idb and edb, then validate each of its rules. -/
def idbValidateEntries (predicates idbKeys : List String) :
    List (String × List Rule) → List (String × String) →
    Except CtxError (List (String × String))
  | [], deps => .ok deps
  | entry :: rest, deps =>
      if entry.1 ∈ predicates then .error (.bothIdbAndEdb entry.1)
      else
        match idbValidateRules predicates idbKeys entry.1 entry.2 deps with
        | .error e => .error e
        | .ok deps' => idbValidateEntries predicates idbKeys rest deps'

/-- The per-idb validation loop of `Context::new` (dependency set starts
empty). -/
def idbValidate (predicates idbKeys : List String)
    (idbs : List (String × List Rule)) :
    Except CtxError (List (String × String)) :=
  idbValidateEntries predicates idbKeys idbs []

/-- The node set of the stratification graph: the `relations` (edb
names) added as nodes, plus both endpoints of every dependency edge. -/
def stratumNodes (relations : List String)
    (deps : List (String × String)) : List String :=
  deps.foldl (fun nodes e => setInsert (setInsert nodes e.1) e.2) relations

/-- Direct successors of a node in the dependency graph. -/
def successors (deps : List (String × String)) (u : String) : List String :=
  deps.filterMap fun e => if e.1 = u then some e.2 else none

/-- One expansion step of reachability: add the successors of every
reached node. -/
def reachStep (deps : List (String × String)) (acc : List String) :
    List String :=
  acc.foldl (fun acc2 u => (successors deps u).foldl setInsert acc2) acc

/-- Iterate reachability expansion. -/
def iterClosure (deps : List (String × String)) :
    Nat → List String → List String
  | 0, acc => acc
  | n + 1, acc => iterClosure deps n (reachStep deps acc)

/-- Nodes reachable from `u` through at least one edge; `bound`
expansion steps, exact once `bound` is at least the number of nodes. -/
def reachPlus (deps : List (String × String)) (bound : Nat) (u : String) :
    List String :=
  iterClosure deps bound ((successors deps u).foldl setInsert [])

/-- Membership in `u`'s strongly connected component. -/
def sameSCC (deps : List (String × String)) (bound : Nat)
    (u v : String) : Bool :=
  u = v || (v ∈ reachPlus deps bound u && u ∈ reachPlus deps bound v)

/-- The stratum level of a node: the number of nodes reachable from it
that lie outside its own SCC.  Nodes sharing an SCC share a level; a
dependency edge into a different SCC strictly lowers the level; edb
nodes (no outgoing edges) sit at level 0. -/
def levelOf (deps : List (String × String)) (nodes : List String)
    (u : String) : Nat :=
  (nodes.filter fun r =>
    (r = u || r ∈ reachPlus deps nodes.length u) &&
      !sameSCC deps nodes.length u r).length

/-- Model of `Stratum` (nodes and the name → level map of `Stratum::new`). -/
structure Stratum where
  nodes : List String
  levels : List (String × Nat)

/-- Model of `Stratum::new`: the node set as built by the source, each node
mapped to its level. -/
def stratumNew (relations : List String)
    (deps : List (String × String)) : Stratum :=
  let nodes := stratumNodes relations deps
  ⟨nodes, nodes.map fun u => (u, levelOf deps nodes u)⟩

/-- Model of `Stratum::get_level`: `none` models the
`expect("relation not found")` panic. -/
def Stratum.get_level (s : Stratum) (relation : String) : Option Nat :=
  alistGet s.levels relation

/-- Model of `check_stratum` for one rule body, given the head's level: every
*negated* body atom must sit at a strictly lower level (equal level is a
`Mutual dependency`, higher a `Cyclic dependency`). -/
def checkStratumBody (s : Stratum) (headLevel : Nat) :
    List Clause → Except CtxError Unit
  | [] => .ok ()
  | clause :: rest =>
      match clause with
      | .atom a =>
          if !a.negation then checkStratumBody s headLevel rest
          else
            match s.get_level a.predicate with
            | none => .error .relationNotFound
            | some level =>
                if headLevel < level then .error .cyclicDependency
                else if headLevel = level then .error .mutualDependency
                else checkStratumBody s headLevel rest
      | .arithmetic _ => checkStratumBody s headLevel rest

/-- Model of `check_stratum` over the rules of one idb entry. -/
def checkStratumRules (s : Stratum) (headLevel : Nat) :
    List Rule → Except CtxError Unit
  | [] => .ok ()
  | rule :: rest =>
      match checkStratumBody s headLevel rule.body with
      | .error e => .error e
      | .ok _ => checkStratumRules s headLevel rest

/-- The stratum-check loop of `Context::new`: look up every idb's level
(panicking with `relation not found` when the predicate never entered
the graph) and check each of its rules' bodies. -/
def levelCheck (s : Stratum) :
    List (String × List Rule) → Except CtxError Unit
  | [] => .ok ()
  | entry :: rest =>
      match s.get_level entry.1 with
      | none => .error .relationNotFound
      | some level =>
          match checkStratumRules s level entry.2 with
          | .error e => .error e
          | .ok _ => levelCheck s rest

/-- Model of `Context` from `context.rs`. -/
structure Context where
  stratum : Stratum
  edbs : List (String × Rule)
  idbs : List (String × List Rule)
  queries : List (String × Rule)

/-- Model of `Context::new`: bucket the rules, resolve edb names, validate the
idbs while collecting dependency edges, stratify, check stratified
negation, and annotate the idb rules' variables. -/
def contextNew (program : List Rule) : Except CtxError Context :=
  let b := bucket program
  match edbNameResolution b.edbs with
  | .error e => .error e
  | .ok predicates =>
      match idbValidate predicates (b.idbs.map Prod.fst) b.idbs with
      | .error e => .error e
      | .ok deps =>
          let s := stratumNew predicates deps
          match levelCheck s b.idbs with
          | .error e => .error e
          | .ok _ =>
              .ok ⟨s, b.edbs,
                b.idbs.map fun entry =>
                  (entry.1, entry.2.map Rule.annotate_variable),
                b.queries⟩

/-- Whether a clause is an atom (the shape `Context::new` matches on when
collecting dependency edges). -/
def Clause.isAtom : Clause → Bool
  | .atom _ => true
  | .arithmetic _ => false

/-- The term occurrences of a body clause: an atom's terms, or an
arithmetic clause's leaves. -/
def Clause.leaves : Clause → List Term
  | .atom a => a.terms
  | .arithmetic a => a.get_leaves

/-! ## Concrete inputs used by the theorems -/

/-- Shorthand: an undistinguished variable term. -/
def uvar (s : String) : Term := .variable (.undistinguished s)

/-- Shorthand: a distinguished variable term. -/
def dvar (s : String) : Term := .variable (.distinguished s)

/-- Shorthand: an integer-constant term. -/
def intc (n : Int) : Term := .constant (.integer n)

/-- Shorthand: a positive atom. -/
def atomOf (p : String) (ts : List Term) : Atom := ⟨false, p, ts⟩

/-- Base-case rule `p(X) :- a(X).` (annotated form). -/
def ruleBase : Rule :=
  ⟨.silent, atomOf "p" [dvar "X"], [.atom (atomOf "a" [dvar "X"])]⟩

/-- Recursive rule `p(Y) :- p(X), s(X, Y).` (annotated form). -/
def ruleR1 : Rule :=
  ⟨.silent, atomOf "p" [dvar "Y"],
    [.atom (atomOf "p" [uvar "X"]), .atom (atomOf "s" [uvar "X", dvar "Y"])]⟩

/-- Recursive rule `p(Y) :- p(X), t(X, Y).` (annotated form). -/
def ruleR2 : Rule :=
  ⟨.silent, atomOf "p" [dvar "Y"],
    [.atom (atomOf "p" [uvar "X"]), .atom (atomOf "t" [uvar "X", dvar "Y"])]⟩

/-- Base relations for the fixpoint-completeness run:
`a = {(1)}`, `s = {(2,3)}`, `t = {(1,2)}`. -/
def db0 : Db := fun n =>
  if n = "a" then [[Constant.integer 1]]
  else if n = "s" then [[Constant.integer 2, Constant.integer 3]]
  else if n = "t" then [[Constant.integer 1, Constant.integer 2]]
  else []

/-- The evaluation of idb `p` (rules `ruleBase`, `ruleR1`, `ruleR2`) over
`db0`, projected to the final contents of table `p` together with the
tuples `ruleR1` derives from the final store. -/
def c1Run : Except EvalErr (List Tup × List Tup) :=
  (evalGo 10 db0 ["a", "s", "t"] [("p", [ruleBase, ruleR1, ruleR2])]).map
    fun db => (db "p", ruleEval db ruleR1 false)

/-- A rule with one derivable fact, `w(1) :- a(1).`, used to exercise the
loop lemmas on a concrete state. -/
def ruleW : Rule :=
  ⟨.silent, atomOf "w" [intc 1], [.atom (atomOf "a" [intc 1])]⟩

/-- A store holding only `a = {(1)}`. -/
def dbA : Db := fun n => if n = "a" then [[Constant.integer 1]] else []

/-- The store `dbA` with `w` already holding `{(1)}`, so one more
iteration of `ruleW` derives nothing new. -/
def dbW : Db := dbA.update "w" [[Constant.integer 1]]

/-- A second rule for predicate `p` with head arity 2 (`ruleBase` has
head arity 1), triggering the arity assertion of `Runtime::eval`. -/
def p2rule : Rule := ⟨.silent, atomOf "p" [dvar "X", dvar "Y"], []⟩

/-- Write rule `q(X, Y, Y).` — a repeated head variable whose first
occurrence is not position 0. -/
def qrule : Rule :=
  ⟨.write none, ⟨false, "q", [uvar "X", uvar "Y", uvar "Y"]⟩, []⟩

/-- Rule `h(X, Y) :- a(X), b(Y).`: head position 0 is sourced from `a`,
head position 1 from `b`. -/
def r6 : Rule :=
  ⟨.silent, ⟨false, "h", [dvar "X", dvar "Y"]⟩,
    [.atom ⟨false, "a", [dvar "X"]⟩, .atom ⟨false, "b", [dvar "Y"]⟩]⟩

/-- Rule `h(X) :- a(X), b(X).`: the occurrences of `X` are `(0,0)` and
`(1,0)` — a tie at the minimal term index 0. -/
def r7 : Rule :=
  ⟨.silent, ⟨false, "h", [dvar "X"]⟩,
    [.atom ⟨false, "a", [dvar "X"]⟩, .atom ⟨false, "b", [dvar "X"]⟩]⟩

/-- The arithmetic clause `X = 1` (a unification with leaves `X` and
`1`), with `X` undistinguished as the parser produces it. -/
def a5 : Arith :=
  .mk .unifier
    (some (.mk (.leaf (uvar "X")) none none))
    (some (.mk (.leaf (intc 1)) none none))

/-- Rule `p(X) :- X = 1.`: the only body occurrence of the head variable
`X` is a leaf of an arithmetic clause. -/
def r5 : Rule :=
  ⟨.silent, ⟨false, "p", [uvar "X"]⟩, [.arithmetic a5]⟩

/-- An `@input edge(…)` declaration with the given column-type symbols. -/
def edbRule (name : String) (tys : List String) : Rule :=
  ⟨.read none, ⟨false, name, tys.map fun t => Term.constant (.symbol t)⟩, []⟩

/-- A program with two `@input` rules for the same predicate `edge`. -/
def prog4 : List Rule := [edbRule "edge" ["int"], edbRule "edge" ["sym"]]

/-- A program whose only rule is the ground fact `q(1).`: the idb `q` has
no atom clause in any body and is referenced by no other rule. -/
def prog9 : List Rule := [⟨.silent, ⟨false, "q", [intc 1]⟩, []⟩]

/-! ## Shared lemmas -/

/-- Model of `INSERT OR IGNORE` keeps every tuple already stored. -/
lemma mem_insertIgnore_left :
    ∀ (new rel : List Tup) (t : Tup), t ∈ rel → t ∈ insertIgnore rel new := by
  intro new
  induction new with
  | nil => intro rel t h; exact h
  | cons x xs ih =>
      intro rel t h
      show t ∈ List.foldl _ (if x ∈ rel then rel else rel ++ [x]) xs
      apply ih
      split
      · exact h
      · exact List.mem_append_left _ h

/-- Model of `INSERT OR IGNORE` stores every inserted tuple. -/
lemma mem_insertIgnore_right :
    ∀ (new rel : List Tup) (t : Tup), t ∈ new → t ∈ insertIgnore rel new := by
  intro new
  induction new with
  | nil => intro rel t h; cases h
  | cons x xs ih =>
      intro rel t h
      show t ∈ List.foldl _ (if x ∈ rel then rel else rel ++ [x]) xs
      rcases List.mem_cons.mp h with rfl | hxs
      · apply mem_insertIgnore_left
        split
        · assumption
        · exact List.mem_append_right _ (List.mem_singleton.mpr rfl)
      · exact ih _ t hxs

/-- A `delta_`-prefixed table name never collides with the bare name. -/
lemma delta_prefix_ne (s : String) : "delta_" ++ s ≠ s := by
  intro h
  have h2 := congrArg String.length h
  rw [String.length_append] at h2
  have h6 : ("delta_" : String).length = 6 := rfl
  omega

/-- A `temp_`-prefixed table name never collides with the bare name. -/
lemma temp_prefix_ne (s : String) : "temp_" ++ s ≠ s := by
  intro h
  have h2 := congrArg String.length h
  rw [String.length_append] at h2
  have h5 : ("temp_" : String).length = 5 := rfl
  omega

/-- Symmetric form of `delta_prefix_ne`. -/
lemma prefix_ne_symm_delta (s : String) : s ≠ "delta_" ++ s :=
  fun e => delta_prefix_ne s e.symm

/-- Symmetric form of `temp_prefix_ne`. -/
lemma prefix_ne_symm_temp (s : String) : s ≠ "temp_" ++ s :=
  fun e => temp_prefix_ne s e.symm

/-- After one `Runtime::iteration`, `delta_p` holds exactly the rows of
the accumulated `temp_p` output that were absent from `p`. -/
lemma iterationStep_delta (db : Db) (rule : Rule) :
    iterationStep db rule ("delta_" ++ rule.head.predicate) =
      (db ("temp_" ++ rule.head.predicate) ++ ruleEval db rule true).filter
        (fun t => t ∉ db rule.head.predicate) := by
  simp [iterationStep, Db.update, delta_prefix_ne, temp_prefix_ne,
    prefix_ne_symm_delta, prefix_ne_symm_temp]

/-- After one `Runtime::iteration`, `p` holds its previous rows plus the
new delta (inserted with `INSERT OR IGNORE`). -/
lemma iterationStep_head (db : Db) (rule : Rule) :
    iterationStep db rule rule.head.predicate =
      insertIgnore (db rule.head.predicate)
        ((db ("temp_" ++ rule.head.predicate) ++ ruleEval db rule true).filter
          (fun t => t ∉ db rule.head.predicate)) := by
  simp [iterationStep, Db.update, delta_prefix_ne, temp_prefix_ne,
    prefix_ne_symm_delta, prefix_ne_symm_temp]

/-! ## Claim theorems -/

/-- C1. *Refuted (code bug).*  The claim asserts fixpoint completeness —
on termination no idb rule applied to the final relations produces a new
tuple — on the strength of all recursive rules sharing a single fixpoint
loop.  In the source, `Runtime::apply_rules` instead runs a complete,
separate `semi_naive_evaluate` loop for each recursive rule in turn.  On
the base relations `a = {(1)}`, `s = {(2,3)}`, `t = {(1,2)}` with rules
`p(X) :- a(X)`, `p(Y) :- p(X), s(X,Y)`, `p(Y) :- p(X), t(X,Y)`, the run
terminates with `p = {(1),(2)}`, yet the first recursive rule applied to
the final store still derives `(3) ∉ p`. -/
theorem eval_not_fixpoint_complete :
    c1Run = .ok ([[Constant.integer 1], [Constant.integer 2]],
                 [[Constant.integer 3]]) ∧
    [Constant.integer 3] ∉ [[Constant.integer 1], [Constant.integer 2]] :=
  ⟨rfl, by decide⟩

/-- C2. *Confirmed.*  For the semi-naïve loop of
`Runtime::semi_naive_evaluate` / `Runtime::iteration`: (1) after the
update step of an iteration, every tuple of `delta_p` is also in `p`;
(2) whenever the loop terminates, `delta_p` is empty; (3) an iteration
leaving `delta_p` empty exits the loop immediately, and (4) an iteration
leaving `delta_p` nonempty continues it — the emptiness check is the
sole exit condition. -/
theorem semi_naive_loop_invariant :
    (∀ (db : Db) (rule : Rule) (t : Tup),
        t ∈ iterationStep db rule ("delta_" ++ rule.head.predicate) →
        t ∈ iterationStep db rule rule.head.predicate) ∧
    (∀ (rule : Rule) (fuel : Nat) (db db' : Db),
        semiNaiveLoop rule fuel db = some db' →
        db' ("delta_" ++ rule.head.predicate) = []) ∧
    (∀ (rule : Rule) (fuel : Nat) (db : Db),
        iterationStep db rule ("delta_" ++ rule.head.predicate) = [] →
        semiNaiveLoop rule (fuel + 1) db = some (iterationStep db rule)) ∧
    (∀ (rule : Rule) (fuel : Nat) (db : Db),
        iterationStep db rule ("delta_" ++ rule.head.predicate) ≠ [] →
        semiNaiveLoop rule (fuel + 1) db =
          semiNaiveLoop rule fuel (iterationStep db rule)) := by
  refine ⟨?_, ?_, ?_, ?_⟩
  · intro db rule t h
    rw [iterationStep_delta] at h
    rw [iterationStep_head]
    exact mem_insertIgnore_right _ _ _ h
  · intro rule fuel
    induction fuel with
    | zero => intro db db' h; exact absurd h (by simp [semiNaiveLoop])
    | succ n ih =>
        intro db db' h
        simp only [semiNaiveLoop] at h
        split at h
        · next hcond =>
            simp only [Option.some.injEq] at h
            subst h; exact hcond
        · exact ih _ _ h
  · intro rule fuel db h
    simp only [semiNaiveLoop]
    rw [if_pos h]
  · intro rule fuel db h
    simp only [semiNaiveLoop]
    rw [if_neg h]

/-- Witness for C2: the invariant and both exit behaviours at concrete
stores (`ruleW` over `dbA` derives `(1)` afresh; over `dbW` it derives
nothing new, so the loop stops after one iteration). -/
theorem semi_naive_loop_invariant_witness :
    [Constant.integer 1] ∈ iterationStep dbA ruleW ruleW.head.predicate ∧
    iterationStep dbW ruleW ("delta_" ++ ruleW.head.predicate) = [] ∧
    semiNaiveLoop ruleW (0 + 1) dbW = some (iterationStep dbW ruleW) ∧
    semiNaiveLoop ruleW (0 + 1) dbA =
      semiNaiveLoop ruleW 0 (iterationStep dbA ruleW) :=
  ⟨semi_naive_loop_invariant.1 dbA ruleW [Constant.integer 1] (by decide),
   semi_naive_loop_invariant.2.1 ruleW 1 dbW (iterationStep dbW ruleW) rfl,
   semi_naive_loop_invariant.2.2.1 ruleW 0 dbW (by decide),
   semi_naive_loop_invariant.2.2.2 ruleW 0 dbA (by decide)⟩

/-- C3. *Refuted (code bug).*  For the write rule `q(X, Y, Y)`, the
source's `write_queries` emits the conjunct `column_0 = column_2`
(`column_0` is hard-coded as the left-hand side), whereas the specified
selection uses the variable's own first head occurrence:
`column_1 = column_2`. -/
theorem write_queries_equate_column_zero :
    writeQueryWhere qrule = [WhereConj.colEq 0 2] ∧
    writeQueryWhereSpec qrule = [WhereConj.colEq 1 2] ∧
    writeQueryWhere qrule ≠ writeQueryWhereSpec qrule :=
  ⟨rfl, rfl, by decide⟩

/-- C8. *Refuted (code bug).*  When `Runtime::new` returns `Err`,
`engine::run` prints the single `ERROR:` diagnostic line and returns
normally; `main` then returns `()`, so the process exits with status 0 —
not the nonzero status the claim requires. -/
theorem fatal_error_exit_zero (e : String) :
    mainResult (.error e) = (["ERROR: " ++ e], 0) ∧
    (mainResult (.error e)).1.length = 1 ∧
    (mainResult (.error e)).2 = 0 :=
  ⟨rfl, rfl, rfl⟩

/-- The walk of `init_base` / `iteration` over the head terms leaves in
`first_predicate` the projection source of the *last* processed
position. -/
lemma selectFromAux_last (rule : Rule) (rename : String → String)
    (ord : String → List (Nat × Nat)) :
    ∀ (ts : List Term) (idx : Nat) (acc : List SelectStmt × String)
      (sel : List SelectStmt) (fp : String),
      selectFromAux rule rename ord idx ts acc = some (sel, fp) →
      match ts.getLast? with
      | none => fp = acc.2
      | some t => (termSource rule rename ord t).map Prod.fst = some fp := by
  intro ts
  induction ts with
  | nil =>
      intro idx acc sel fp h
      simp only [selectFromAux, Option.some.injEq] at h
      show fp = acc.2
      rw [h]
  | cons t rest ih =>
      intro idx acc sel fp h
      simp only [selectFromAux] at h
      cases hts : termSource rule rename ord t with
      | none => rw [hts] at h; exact absurd h (by simp)
      | some pr =>
          obtain ⟨nm, j⟩ := pr
          rw [hts] at h
          have h' : selectFromAux rule rename ord (idx + 1) rest
              (acc.1 ++ [⟨nm, j, idx⟩], nm) = some (sel, fp) := h
          have h2 := ih (idx + 1) (acc.1 ++ [⟨nm, j, idx⟩], nm) sel fp h'
          cases rest with
          | nil =>
              have hfp : fp = nm := h2
              simp only [List.getLast?_singleton]
              rw [hts, hfp]
              rfl
          | cons r rs =>
              rw [List.getLast?_cons_cons]
              exact h2

/-- Common form of the amended anchor property: when the select walk
succeeds, the FROM relation equals the projection source of the last
head position. -/
lemma anchor_eq_last_source (rule : Rule) (rename : String → String)
    (ord : String → List (Nat × Nat)) (sel : List SelectStmt) (fp : String)
    (hne : rule.head.terms ≠ [])
    (h : selectFromAux rule rename ord 0 rule.head.terms ([], "") =
      some (sel, fp)) :
    projSource rule rename ord (rule.head.terms.length - 1) = some fp := by
  have h2 := selectFromAux_last rule rename ord rule.head.terms 0 ([], "") sel fp h
  cases hl : rule.head.terms.getLast? with
  | none => exact absurd (List.getLast?_eq_none_iff.mp hl) hne
  | some t =>
      rw [hl] at h2
      have hget : rule.head.terms.get? (rule.head.terms.length - 1) = some t := by
        rw [List.get?_eq_getElem?, ← List.getLast?_eq_getElem?]
        exact hl
      unfold projSource
      rw [hget]
      exact h2

/-- C6. *Corrected.*  Counterexample to the claim as stated: for
`h(X, Y) :- a(X), b(Y)`, the projection source of head position 0 is
`a`, but `init_base` emits `FROM b` — the loop overwrites
`first_predicate` at every head position, so the anchor is the source of
the *last* position, not of position 0. -/
theorem init_base_anchor_counterexample :
    (initBaseSelectFrom r6 (alloc r6)).map Prod.snd = some "b" ∧
    projSource r6 id (alloc r6) 0 = some "a" ∧
    (initBaseSelectFrom r6 (alloc r6)).map Prod.snd ≠
      projSource r6 id (alloc r6) 0 :=
  ⟨rfl, rfl, by decide⟩

/-- C6 (amended). *Proved.*  For every compiled rule — base-case seeding
(`init_base`) and semi-naïve iteration (`iteration`) alike — the FROM
relation of the generated query is the body clause chosen as the
projection source for the *last* head position. -/
theorem anchor_is_last_position_source :
    (∀ (rule : Rule) (ord : String → List (Nat × Nat))
       (sel : List SelectStmt) (fp : String),
        rule.head.terms ≠ [] →
        initBaseSelectFrom rule ord = some (sel, fp) →
        projSource rule id ord (rule.head.terms.length - 1) = some fp) ∧
    (∀ (rule : Rule) (ord : String → List (Nat × Nat))
       (sel : List SelectStmt) (fp : String),
        rule.head.terms ≠ [] →
        iterationSelectFrom rule ord = some (sel, fp) →
        projSource rule (deltaRename rule.head.predicate) ord
          (rule.head.terms.length - 1) = some fp) :=
  ⟨fun rule ord sel fp hne h => anchor_eq_last_source rule id ord sel fp hne h,
   fun rule ord sel fp hne h =>
     anchor_eq_last_source rule (deltaRename rule.head.predicate) ord sel fp hne h⟩

/-- Witness for the amended C6, at the rule `h(X, Y) :- a(X), b(Y)`:
both compiled forms anchor on `b`, the source of the last head
position. -/
theorem anchor_is_last_position_source_witness :
    projSource r6 id (alloc r6) (r6.head.terms.length - 1) = some "b" ∧
    projSource r6 (deltaRename r6.head.predicate) (alloc r6)
      (r6.head.terms.length - 1) = some "b" :=
  ⟨anchor_is_last_position_source.1 r6 (alloc r6)
      [⟨"a", 0, 0⟩, ⟨"b", 0, 1⟩] "b" (by decide) rfl,
   anchor_is_last_position_source.2 r6 (alloc r6)
      [⟨"a", 0, 0⟩, ⟨"b", 0, 1⟩] "b" (by decide) rfl⟩

/-- C7. *Refuted (code bug).*  For `h(X) :- a(X), b(X)` the occurrences
of `X` are `(0,0)` and `(1,0)` — tied at the minimal term index.  Both
orders below are valid iteration orders of the occurrence `HashSet`, yet
they make `min_by_key` pick different occurrences and the compiler emit
different projection lists and FROM anchors: the tie is broken by the
set's (per-process randomized) iteration order, not deterministically. -/
theorem anchor_tie_broken_by_iteration_order :
    ValidOrd r7 (fun v => alloc r7 v) ∧
    ValidOrd r7 (fun v => (alloc r7 v).reverse) ∧
    initBaseSelectFrom r7 (fun v => alloc r7 v) =
      some ([⟨"a", 0, 0⟩], "a") ∧
    initBaseSelectFrom r7 (fun v => (alloc r7 v).reverse) =
      some ([⟨"b", 0, 0⟩], "b") ∧
    initBaseSelectFrom r7 (fun v => alloc r7 v) ≠
      initBaseSelectFrom r7 (fun v => (alloc r7 v).reverse) :=
  ⟨fun _ => List.Perm.refl _, fun _ => List.reverse_perm _, rfl, rfl, by decide⟩

/-- C5. *Refuted (code bug).*  `annotate_variable` maps arithmetic body
clauses to themselves (the source mutates the temporary clone vector
returned by `get_leaves`), so for `p(X) :- X = 1` the body leaf `X` —
an occurrence of a head-variable name — is still undistinguished after
annotation. -/
theorem annotate_variable_skips_arith_leaves :
    (∀ (rule : Rule) (a : Arith),
        Clause.arithmetic a ∈ rule.body →
        Clause.arithmetic a ∈ (rule.annotate_variable).body) ∧
    "X" ∈ headDistinguished r5.head ∧
    (r5.annotate_variable).body.map Clause.leaves =
      [[Term.variable (.undistinguished "X"), intc 1]] := by
  refine ⟨?_, by decide, rfl⟩
  intro rule a h
  simp only [Rule.annotate_variable]
  exact List.mem_map.mpr ⟨Clause.arithmetic a, h, rfl⟩

/-- Witness for C5: the arithmetic clause of `r5` survives annotation
unchanged. -/
theorem annotate_variable_skips_arith_leaves_witness :
    Clause.arithmetic a5 ∈ (r5.annotate_variable).body :=
  annotate_variable_skips_arith_leaves.1 r5 a5 (List.Mem.head _)

/-- C10. *Confirmed.*  Before evaluating an idb predicate,
`Runtime::eval` asserts that every rule of that predicate has the same
head arity as the predicate's first rule; two rules of different arity
make the driver abort with the assertion before any rule of that
predicate is compiled or executed. -/
theorem eval_asserts_equal_arities (fuel : Nat) (db : Db)
    (previous : List String) (name : String) (rules : List Rule)
    (rest : List (String × List Rule)) (r1 r2 : Rule)
    (h1 : r1 ∈ rules) (h2 : r2 ∈ rules)
    (hne : r1.head.terms.length ≠ r2.head.terms.length) :
    evalGo fuel db previous ((name, rules) :: rest) = .error .arityAssert := by
  have hfalse : ¬ (arityAssertHolds rules = true) := by
    intro htrue
    have hall := List.all_eq_true.mp htrue
    cases rules with
    | nil => cases h1
    | cons x xs =>
        have e1 := of_decide_eq_true (hall r1 h1)
        have e2 := of_decide_eq_true (hall r2 h2)
        simp only [List.headD_cons] at e1 e2
        exact hne (e1.trans e2.symm)
  simp only [evalGo]
  rw [if_neg hfalse]

/-- Witness for C10: predicate `p` with rules of head arity 1 and 2
aborts with the arity assertion. -/
theorem eval_asserts_equal_arities_witness :
    evalGo 1 dbA [] [("p", [ruleBase, p2rule])] = .error .arityAssert :=
  eval_asserts_equal_arities 1 dbA [] "p" [ruleBase, p2rule] []
    ruleBase p2rule (List.Mem.head _) (List.Mem.tail _ (List.Mem.head _))
    (by decide)

/-- Membership after a set insertion. -/
lemma setInsert_mem {α : Type} [DecidableEq α] (s : List α) (y x : α) :
    x ∈ setInsert s y ↔ x ∈ s ∨ x = y := by
  unfold setInsert
  split
  · next hy =>
      constructor
      · exact Or.inl
      · rintro (h | rfl)
        · exact h
        · exact hy
  · simp [List.mem_append]

/-- Keys after a `HashMap::insert`. -/
lemma mem_keys_alistInsert {α : Type} (m : List (String × α)) (k : String)
    (v : α) (x : String) :
    x ∈ (alistInsert m k v).map Prod.fst ↔ x ∈ m.map Prod.fst ∨ x = k := by
  induction m with
  | nil => simp [alistInsert]
  | cons e rest ih =>
      obtain ⟨k', v'⟩ := e
      by_cases hk : k' = k
      · subst hk
        have hred : alistInsert ((k', v') :: rest) k' v = (k', v) :: rest := by
          simp [alistInsert]
        rw [hred]
        simp only [List.map_cons, List.mem_cons]
        tauto
      · have hred : alistInsert ((k', v') :: rest) k v =
            (k', v') :: alistInsert rest k v := by
          simp [alistInsert, hk]
        rw [hred]
        simp only [List.map_cons, List.mem_cons, ih]
        tauto

/-- Model of `HashMap::insert` preserves distinctness of keys. -/
lemma alistInsert_keys_nodup {α : Type} (m : List (String × α)) (k : String)
    (v : α) (h : (m.map Prod.fst).Nodup) :
    ((alistInsert m k v).map Prod.fst).Nodup := by
  induction m with
  | nil => simp [alistInsert]
  | cons e rest ih =>
      obtain ⟨k', v'⟩ := e
      simp only [List.map_cons, List.nodup_cons] at h
      by_cases hk : k' = k
      · subst hk
        have hred : alistInsert ((k', v') :: rest) k' v = (k', v) :: rest := by
          simp [alistInsert]
        rw [hred]
        simp only [List.map_cons, List.nodup_cons]
        exact ⟨h.1, h.2⟩
      · have hred : alistInsert ((k', v') :: rest) k v =
            (k', v') :: alistInsert rest k v := by
          simp [alistInsert, hk]
        rw [hred]
        simp only [List.map_cons, List.nodup_cons]
        refine ⟨?_, ih h.2⟩
        rw [mem_keys_alistInsert]
        rintro (hmem | rfl)
        · exact h.1 hmem
        · exact hk rfl

/-- The bucketing loop keeps the `edbs` keys distinct. -/
lemma bucket_foldl_edbs_nodup :
    ∀ (rules : List Rule) (b : Buckets),
      (b.edbs.map Prod.fst).Nodup →
      (((rules.foldl bucketStep b).edbs).map Prod.fst).Nodup := by
  intro rules
  induction rules with
  | nil => intro b h; exact h
  | cons r rest ih =>
      intro b h
      simp only [List.foldl_cons]
      apply ih
      cases hio : r.io with
      | read s => simpa [bucketStep, hio] using alistInsert_keys_nodup _ _ _ h
      | write s => simpa [bucketStep, hio] using h
      | silent => simpa [bucketStep, hio] using h

/-- The `edbs` map of any bucketed program has distinct keys: the
`HashMap` deduplicates before the duplicate check ever runs. -/
lemma bucket_edbs_nodup (program : List Rule) :
    (((bucket program).edbs).map Prod.fst).Nodup :=
  bucket_foldl_edbs_nodup program ⟨[], [], []⟩ (by simp)

/-- Over a map with distinct keys, edb name resolution never trips the
duplicate check: it returns the full key list. -/
lemma edbNameResolutionGo_ok :
    ∀ (edbs : List (String × Rule)) (acc : List String),
      (edbs.map Prod.fst).Nodup →
      (∀ k ∈ edbs.map Prod.fst, k ∉ acc) →
      edbNameResolutionGo edbs acc = .ok (acc ++ edbs.map Prod.fst) := by
  intro edbs
  induction edbs with
  | nil => intro acc _ _; simp [edbNameResolutionGo]
  | cons e rest ih =>
      intro acc hnodup hdisj
      obtain ⟨k, r⟩ := e
      simp only [List.map_cons, List.nodup_cons] at hnodup
      have hk : k ∉ acc := hdisj k (by simp)
      simp only [edbNameResolutionGo, if_neg hk]
      have harg : ∀ x ∈ rest.map Prod.fst, x ∉ acc ++ [k] := by
        intro x hx
        simp only [List.mem_append, List.mem_singleton]
        rintro (hxa | rfl)
        · exact hdisj x (by simp [hx]) hxa
        · exact hnodup.1 hx
      rw [ih (acc ++ [k]) hnodup.2 harg]
      simp

/-- C4. *Refuted (code bug).*  Two `@input` rules of the same name are
collapsed by the `edbs` `HashMap` before the duplicate check runs, so
the `Duplicated predicate` panic is unreachable — name resolution always
succeeds with the deduplicated key set — and on the concrete program
with two `@input edge` rules, `Context::new` succeeds, silently keeping
only the later rule (`edge(sym)`). -/
theorem duplicate_edb_check_unreachable :
    (∀ program : List Rule,
        edbNameResolution (bucket program).edbs =
          .ok ((bucket program).edbs.map Prod.fst)) ∧
    (contextNew prog4).map
        (fun c => c.edbs.map fun e => (e.1, e.2.head.terms)) =
      .ok [("edge", [Term.constant (.symbol "sym")])] := by
  refine ⟨?_, rfl⟩
  intro program
  have h := edbNameResolutionGo_ok (bucket program).edbs []
    (bucket_edbs_nodup program) (by simp)
  simpa [edbNameResolution] using h

/-- Keys after a push onto a map entry. -/
lemma mem_keys_alistPush {α : Type} (m : List (String × List α)) (k : String)
    (v : α) (x : String) :
    x ∈ (alistPush m k v).map Prod.fst ↔ x ∈ m.map Prod.fst ∨ x = k := by
  induction m with
  | nil => simp [alistPush]
  | cons e rest ih =>
      obtain ⟨k', vs'⟩ := e
      by_cases hk : k' = k
      · subst hk
        have hred : alistPush ((k', vs') :: rest) k' v =
            (k', vs' ++ [v]) :: rest := by
          simp [alistPush]
        rw [hred]
        simp only [List.map_cons, List.mem_cons]
        tauto
      · have hred : alistPush ((k', vs') :: rest) k v =
            (k', vs') :: alistPush rest k v := by
          simp [alistPush, hk]
        rw [hred]
        simp only [List.map_cons, List.mem_cons, ih]
        tauto

/-- Elements of the entries of a map after a push: they were in an entry
already, or they are the pushed value under the pushed key. -/
lemma alistPush_entries {α : Type} :
    ∀ (m : List (String × List α)) (k : String) (v : α) (k' : String)
      (vs : List α), (k', vs) ∈ alistPush m k v → ∀ x ∈ vs,
      (∃ vs₀, (k', vs₀) ∈ m ∧ x ∈ vs₀) ∨ (x = v ∧ k' = k) := by
  intro m
  induction m with
  | nil =>
      intro k v k' vs hmem x hx
      simp only [alistPush, List.mem_singleton, Prod.mk.injEq] at hmem
      obtain ⟨rfl, rfl⟩ := hmem
      right
      exact ⟨List.mem_singleton.mp hx, rfl⟩
  | cons e rest ih =>
      intro k v k' vs hmem x hx
      obtain ⟨ke, vse⟩ := e
      by_cases hk : ke = k
      · subst hk
        have hred : alistPush ((ke, vse) :: rest) ke v =
            (ke, vse ++ [v]) :: rest := by
          simp [alistPush]
        rw [hred] at hmem
        rcases List.mem_cons.mp hmem with heq | htail
        · obtain ⟨rfl, rfl⟩ := Prod.mk.injEq .. ▸ heq
          rcases List.mem_append.mp hx with hv | hv
          · exact Or.inl ⟨vse, List.mem_cons_self _ _, hv⟩
          · exact Or.inr ⟨List.mem_singleton.mp hv, rfl⟩
        · exact Or.inl ⟨vs, List.mem_cons_of_mem _ htail, hx⟩
      · have hred : alistPush ((ke, vse) :: rest) k v =
            (ke, vse) :: alistPush rest k v := by
          simp [alistPush, hk]
        rw [hred] at hmem
        rcases List.mem_cons.mp hmem with heq | htail
        · obtain ⟨rfl, rfl⟩ := Prod.mk.injEq .. ▸ heq
          exact Or.inl ⟨vs, List.mem_cons_self _ _, hx⟩
        · rcases ih k v k' vs htail x hx with ⟨vs₀, hv₀, hxv⟩ | hr
          · exact Or.inl ⟨vs₀, List.mem_cons_of_mem _ hv₀, hxv⟩
          · exact Or.inr hr

/-- A predicate with a `silent` rule in the program ends up as an `idbs`
key of the bucketing loop. -/
lemma bucket_foldl_idbs_key :
    ∀ (rules : List Rule) (b : Buckets) (q : String),
      (q ∈ b.idbs.map Prod.fst ∨
        ∃ r ∈ rules, r.io = .silent ∧ r.head.predicate = q) →
      q ∈ ((rules.foldl bucketStep b).idbs).map Prod.fst := by
  intro rules
  induction rules with
  | nil =>
      intro b q h
      rcases h with h | ⟨r, hr, _⟩
      · exact h
      · cases hr
  | cons x xs ih =>
      intro b q h
      simp only [List.foldl_cons]
      apply ih
      rcases h with hb | ⟨r, hr, hsil, hhd⟩
      · left
        cases hio : x.io with
        | read s => simpa [bucketStep, hio] using hb
        | write s => simpa [bucketStep, hio] using hb
        | silent =>
            simp only [bucketStep, hio]
            exact (mem_keys_alistPush _ _ _ _).mpr (Or.inl hb)
      · rcases List.mem_cons.mp hr with rfl | htail
        · left
          simp only [bucketStep, hsil]
          exact (mem_keys_alistPush _ _ _ _).mpr (Or.inr hhd.symm)
        · exact Or.inr ⟨r, htail, hsil, hhd⟩

/-- Rules stored in the `idbs` entries of the bucketing loop come from
the processed program (as `silent` rules whose head names the key) or
from the starting bucket. -/
lemma bucket_foldl_idbs_entries :
    ∀ (rules : List Rule) (b : Buckets) (k : String) (rs : List Rule),
      (k, rs) ∈ ((rules.foldl bucketStep b).idbs) → ∀ r ∈ rs,
      (∃ rs₀, (k, rs₀) ∈ b.idbs ∧ r ∈ rs₀) ∨
        (r ∈ rules ∧ r.io = .silent ∧ r.head.predicate = k) := by
  intro rules
  induction rules with
  | nil =>
      intro b k rs hmem r hr
      exact Or.inl ⟨rs, hmem, hr⟩
  | cons x xs ih =>
      intro b k rs hmem r hr
      simp only [List.foldl_cons] at hmem
      rcases ih (bucketStep b x) k rs hmem r hr with ⟨rs₀, h₀, hr₀⟩ | ⟨hrx, hsil, hhd⟩
      · cases hio : x.io with
        | read s =>
            exact Or.inl ⟨rs₀, by simpa [bucketStep, hio] using h₀, hr₀⟩
        | write s =>
            exact Or.inl ⟨rs₀, by simpa [bucketStep, hio] using h₀, hr₀⟩
        | silent =>
            have h₀' : (k, rs₀) ∈ alistPush b.idbs x.head.predicate x := by
              simpa [bucketStep, hio] using h₀
            rcases alistPush_entries b.idbs x.head.predicate x k rs₀ h₀' r hr₀ with
              ⟨vs₀, hv₀, hrv⟩ | ⟨rfl, rfl⟩
            · exact Or.inl ⟨vs₀, hv₀, hrv⟩
            · exact Or.inr ⟨List.mem_cons_self _ _, hio, rfl⟩
      · exact Or.inr ⟨List.mem_cons_of_mem _ hrx, hsil, hhd⟩

/-- When the per-idb validation loop succeeds, no idb key is also an edb
predicate. -/
lemma idbValidateEntries_ok_not_pred (preds keys : List String) :
    ∀ (idbs : List (String × List Rule)) (deps deps' : List (String × String)),
      idbValidateEntries preds keys idbs deps = .ok deps' →
      ∀ (k : String) (rs : List Rule), (k, rs) ∈ idbs → k ∉ preds := by
  intro idbs
  induction idbs with
  | nil => intro _ _ _ k rs hmem; cases hmem
  | cons e rest ih =>
      intro deps deps' h k rs hmem
      simp only [idbValidateEntries] at h
      by_cases hpe : e.1 ∈ preds
      · rw [if_pos hpe] at h
        exact Except.noConfusion h
      · rw [if_neg hpe] at h
        rcases List.mem_cons.mp hmem with heq | htail
        · have : k = e.1 := congrArg Prod.fst heq
          rw [this]
          exact hpe
        · cases hrv : idbValidateRules preds keys e.1 e.2 deps with
          | error er => rw [hrv] at h; exact Except.noConfusion h
          | ok deps'' =>
              rw [hrv] at h
              exact ih deps'' deps' h k rs htail

/-- Dependency pairs contributed by the body clauses of one rule. -/
lemma idbValidateClauses_deps (preds keys : List String) (name : String) :
    ∀ (clauses : List Clause) (deps deps' : List (String × String)),
      idbValidateClauses preds keys name clauses deps = .ok deps' →
      ∀ pr ∈ deps', pr ∈ deps ∨
        ∃ a, Clause.atom a ∈ clauses ∧ pr = (name, a.predicate) := by
  intro clauses
  induction clauses with
  | nil =>
      intro deps deps' h pr hpr
      simp only [idbValidateClauses, Except.ok.injEq] at h
      exact Or.inl (h ▸ hpr)
  | cons c rest ih =>
      intro deps deps' h pr hpr
      cases c with
      | atom a =>
          simp only [idbValidateClauses] at h
          cases hca : checkAtom preds keys a with
          | error er => rw [hca] at h; exact Except.noConfusion h
          | ok u =>
              rw [hca] at h
              rcases ih _ deps' h pr hpr with hins | ⟨a', ha', hpr'⟩
              · rcases (setInsert_mem _ _ _).mp hins with hd | rfl
                · exact Or.inl hd
                · exact Or.inr ⟨a, List.mem_cons_self _ _, rfl⟩
              · exact Or.inr ⟨a', List.mem_cons_of_mem _ ha', hpr'⟩
      | arithmetic ar =>
          simp only [idbValidateClauses] at h
          rcases ih _ deps' h pr hpr with hd | ⟨a', ha', hpr'⟩
          · exact Or.inl hd
          · exact Or.inr ⟨a', List.mem_cons_of_mem _ ha', hpr'⟩

/-- Dependency pairs contributed by the rules of one idb entry. -/
lemma idbValidateRules_deps (preds keys : List String) (name : String) :
    ∀ (rules : List Rule) (deps deps' : List (String × String)),
      idbValidateRules preds keys name rules deps = .ok deps' →
      ∀ pr ∈ deps', pr ∈ deps ∨
        ∃ r ∈ rules, ∃ a, Clause.atom a ∈ r.body ∧ pr = (name, a.predicate) := by
  intro rules
  induction rules with
  | nil =>
      intro deps deps' h pr hpr
      simp only [idbValidateRules, Except.ok.injEq] at h
      exact Or.inl (h ▸ hpr)
  | cons r rest ih =>
      intro deps deps' h pr hpr
      simp only [idbValidateRules] at h
      cases hch : checkHead r.head with
      | error er => rw [hch] at h; exact Except.noConfusion h
      | ok u =>
          rw [hch] at h
          cases hcl : idbValidateClauses preds keys name r.body deps with
          | error er => rw [hcl] at h; exact Except.noConfusion h
          | ok deps'' =>
              rw [hcl] at h
              rcases ih deps'' deps' h pr hpr with hd'' | ⟨r', hr', ha⟩
              · rcases idbValidateClauses_deps preds keys name r.body deps
                    deps'' hcl pr hd'' with hd | ⟨a, ha, hpr'⟩
                · exact Or.inl hd
                · exact Or.inr ⟨r, List.mem_cons_self _ _, a, ha, hpr'⟩
              · exact Or.inr ⟨r', List.mem_cons_of_mem _ hr', ha⟩

/-- Dependency pairs of the whole validation loop: each arises from an
atom clause of some rule of some idb entry, with the entry's key as
source. -/
lemma idbValidateEntries_deps (preds keys : List String) :
    ∀ (idbs : List (String × List Rule)) (deps deps' : List (String × String)),
      idbValidateEntries preds keys idbs deps = .ok deps' →
      ∀ pr ∈ deps', pr ∈ deps ∨
        ∃ (k : String) (rs : List Rule), (k, rs) ∈ idbs ∧
          ∃ r ∈ rs, ∃ a, Clause.atom a ∈ r.body ∧ pr = (k, a.predicate) := by
  intro idbs
  induction idbs with
  | nil =>
      intro deps deps' h pr hpr
      simp only [idbValidateEntries, Except.ok.injEq] at h
      exact Or.inl (h ▸ hpr)
  | cons e rest ih =>
      intro deps deps' h pr hpr
      simp only [idbValidateEntries] at h
      by_cases hpe : e.1 ∈ preds
      · rw [if_pos hpe] at h
        exact Except.noConfusion h
      · rw [if_neg hpe] at h
        cases hrv : idbValidateRules preds keys e.1 e.2 deps with
        | error er => rw [hrv] at h; exact Except.noConfusion h
        | ok deps'' =>
            rw [hrv] at h
            rcases ih deps'' deps' h pr hpr with hd'' | ⟨k, rs, hk, hrest⟩
            · rcases idbValidateRules_deps preds keys e.1 e.2 deps deps''
                  hrv pr hd'' with hd | ⟨r, hr, a, ha, hpr'⟩
              · exact Or.inl hd
              · exact Or.inr ⟨e.1, e.2, by simp, r, hr, a, ha, hpr'⟩
            · exact Or.inr ⟨k, rs, List.mem_cons_of_mem _ hk, hrest⟩

/-- Nodes of the stratification graph: the edb relations plus the
endpoints of the dependency edges. -/
lemma stratumNodes_mem :
    ∀ (deps : List (String × String)) (relations : List String) (x : String),
      x ∈ stratumNodes relations deps →
      x ∈ relations ∨ ∃ e ∈ deps, x = e.1 ∨ x = e.2 := by
  intro deps
  induction deps with
  | nil => intro relations x h; exact Or.inl h
  | cons e rest ih =>
      intro relations x h
      have h' := ih (setInsert (setInsert relations e.1) e.2) x h
      rcases h' with hm | ⟨e', he', hx⟩
      · rcases (setInsert_mem _ _ _).mp hm with hm2 | rfl
        · rcases (setInsert_mem _ _ _).mp hm2 with hm3 | rfl
          · exact Or.inl hm3
          · exact Or.inr ⟨e, List.mem_cons_self _ _, Or.inl rfl⟩
        · exact Or.inr ⟨e, List.mem_cons_self _ _, Or.inr rfl⟩
      · exact Or.inr ⟨e', List.mem_cons_of_mem _ he', hx⟩

/-- Looking up a key absent from the node list of a level map. -/
lemma alistGet_map_none (nodes : List String) (f : String → Nat) (q : String)
    (h : q ∉ nodes) : alistGet (nodes.map fun u => (u, f u)) q = none := by
  induction nodes with
  | nil => rfl
  | cons n rest ih =>
      simp only [List.mem_cons, not_or] at h
      simp only [List.map_cons, alistGet]
      rw [if_neg (fun he => h.1 he.symm)]
      exact ih h.2

/-- If some idb's level lookup fails, the stratum-check loop cannot
succeed. -/
lemma levelCheck_missing (s : Stratum) :
    ∀ (idbs : List (String × List Rule)) (k : String) (rs : List Rule),
      (k, rs) ∈ idbs → s.get_level k = none →
      ∀ u, levelCheck s idbs ≠ .ok u := by
  intro idbs
  induction idbs with
  | nil => intro k rs hmem; cases hmem
  | cons e rest ih =>
      intro k rs hmem hnone u h
      simp only [levelCheck] at h
      cases hgl : s.get_level e.1 with
      | none => rw [hgl] at h; exact Except.noConfusion h
      | some lvl =>
          simp only [hgl] at h
          cases hcsr : checkStratumRules s lvl e.2 with
          | error er =>
              simp only [hcsr] at h
              exact Except.noConfusion h
          | ok v =>
              simp only [hcsr] at h
              rcases List.mem_cons.mp hmem with heq | htail
              · have hk : k = e.1 := congrArg Prod.fst heq
                rw [hk, hgl] at hnone
                exact Option.noConfusion hnone
              · exact ih k rs htail hnone u h

/-- C9. *Confirmed.*  The stratification graph holds only the edb names
and the endpoints of dependency edges contributed by atom clauses of idb
bodies.  An idb predicate `q` none of whose rules has an atom clause in
its body, and which appears in no rule's body, therefore never enters
the graph: the stratum-check loop's `get_level(q)` fails with the
`relation not found` panic, `Context::new` never returns a context, and
`q` is never evaluated.  Concretely, the program consisting of the
ground fact `q(1).` fails with exactly that error. -/
theorem fact_only_idb_never_stratified :
    (∀ (program : List Rule) (q : String),
        (∃ r ∈ program, r.io = .silent ∧ r.head.predicate = q) →
        (∀ r ∈ program, r.io = .silent → r.head.predicate = q →
          ∀ a : Atom, Clause.atom a ∉ r.body) →
        (∀ r ∈ program, ∀ a : Atom, Clause.atom a ∈ r.body →
          a.predicate ≠ q) →
        ∀ ctx : Context, contextNew program ≠ .ok ctx) ∧
    contextNew prog9 = .error .relationNotFound := by
  refine ⟨?_, rfl⟩
  intro program q hq hnoatom hnobody ctx h
  simp only [contextNew] at h
  cases hres : edbNameResolution (bucket program).edbs with
  | error e =>
      simp only [hres] at h
      exact Except.noConfusion h
  | ok predicates =>
      simp only [hres] at h
      cases hval : idbValidate predicates ((bucket program).idbs.map Prod.fst)
          (bucket program).idbs with
      | error e =>
          simp only [hval] at h
          exact Except.noConfusion h
      | ok deps =>
          simp only [hval] at h
          cases hlev : levelCheck (stratumNew predicates deps)
              (bucket program).idbs with
          | error e =>
              simp only [hlev] at h
              exact Except.noConfusion h
          | ok u =>
              obtain ⟨r0, hr0, hsil0, hhd0⟩ := hq
              have hkey : q ∈ ((bucket program).idbs).map Prod.fst :=
                bucket_foldl_idbs_key program ⟨[], [], []⟩ q
                  (Or.inr ⟨r0, hr0, hsil0, hhd0⟩)
              obtain ⟨p, hp, hpq⟩ := List.mem_map.mp hkey
              have hpent : (q, p.2) ∈ (bucket program).idbs := by
                rw [← hpq]
                exact hp
              have hval' : idbValidateEntries predicates
                  ((bucket program).idbs.map Prod.fst)
                  (bucket program).idbs [] = .ok deps := hval
              have hnotnode : q ∉ stratumNodes predicates deps := by
                intro hin
                rcases stratumNodes_mem deps predicates q hin with
                  hpred | ⟨e, he, hqe⟩
                · exact idbValidateEntries_ok_not_pred predicates _ _ _ _
                    hval' q p.2 hpent hpred
                · rcases idbValidateEntries_deps predicates _ _ _ _ hval' e he
                    with hnil | ⟨k, rs, hkrs, r, hr, a, ha, hpr⟩
                  · cases hnil
                  · rcases bucket_foldl_idbs_entries program ⟨[], [], []⟩ k rs
                        hkrs r hr with ⟨rs₀, h₀, _⟩ | ⟨hrprog, hrsil, hrhd⟩
                    · cases h₀
                    · rcases hqe with hq1 | hq2
                      · rw [hpr] at hq1
                        simp only at hq1
                        exact hnoatom r hrprog hrsil (hrhd.trans hq1.symm)
                          a ha
                      · rw [hpr] at hq2
                        simp only at hq2
                        exact hnobody r hrprog a ha hq2.symm
              have hnone : (stratumNew predicates deps).get_level q = none := by
                simp only [stratumNew, Stratum.get_level]
                exact alistGet_map_none _ _ q hnotnode
              exact levelCheck_missing (stratumNew predicates deps) _ q p.2
                hpent hnone u hlev

/-- Witness for C9: the ground-fact program `q(1).` both satisfies the
hypotheses and fails to produce any context. -/
theorem fact_only_idb_never_stratified_witness :
    contextNew prog9 ≠ .ok ⟨⟨[], []⟩, [], [], []⟩ :=
  fact_only_idb_never_stratified.1 prog9 "q"
    ⟨⟨.silent, ⟨false, "q", [intc 1]⟩, []⟩, List.Mem.head _, rfl, rfl⟩
    (by
      intro r hr _ _ a ha
      simp only [prog9, List.mem_singleton] at hr
      subst hr
      cases ha)
    (by
      intro r hr a ha
      simp only [prog9, List.mem_singleton] at hr
      subst hr
      cases ha)
    ⟨⟨[], []⟩, [], [], []⟩

end Amoeba
